import Mathlib

/-!
Verification of the github-monitor-analysis aggregation logic.

The definitions below are a shallow embedding of the client-side
aggregation code:

* `src/components/CommitQualityAnalysis.tsx` — quality scorer,
* `src/components/CommitAnalytics.tsx`      — commit aggregator,
* `src/components/FileUpload.tsx`           — roster loader,
* `src/components/GitHubTokenManager.tsx`   — credential holder,
* the git-activity component                — event aggregator.

Dates are modelled as integer UTC day numbers (the code normalizes every
timestamp to its UTC calendar-day string via `toISOString().split('T')[0]`,
which is injective on days, so a day number is a faithful key).  The
JavaScript string primitives used by the code (`trim`, `toLowerCase`,
`includes`, `split`, `length`, emptiness/truthiness) are modelled by
structurally recursive functions on character lists so that every
definition evaluates inside the kernel; string lengths are character
counts (all scenario strings are ASCII, where the JavaScript UTF-16
length agrees). -/

namespace GithubMonitor

/-- Boolean test that the first character list is an initial segment of the
second. -/
def startsWithChars : List Char → List Char → Bool
  | [], _ => true
  | _ :: _, [] => false
  | p :: ps, c :: cs => p == c && startsWithChars ps cs

/-- The pattern characters occur contiguously somewhere in the list: model of
JavaScript `String.prototype.includes` on character lists. -/
def occursInChars (pat : List Char) : List Char → Bool
  | [] => pat.isEmpty
  | c :: cs => startsWithChars pat (c :: cs) || occursInChars pat cs

/-- Model of `s.includes(pat)` for JavaScript strings. -/
def strIncludes (s pat : String) : Bool :=
  occursInChars pat.toList s.toList

/-- Leading and trailing whitespace removed: model of
`String.prototype.trim` on character lists. -/
def trimChars (cs : List Char) : List Char :=
  ((cs.dropWhile Char.isWhitespace).reverse.dropWhile Char.isWhitespace).reverse

/-- Model of `s.trim()` for JavaScript strings. -/
def jsTrim (s : String) : String :=
  String.mk (trimChars s.toList)

/-- Model of `s.toLowerCase()` for JavaScript strings (character-wise
lower-casing). -/
def jsToLower (s : String) : String :=
  String.mk (s.toList.map Char.toLower)

/-- Model of `s.length` for JavaScript strings (character count). -/
def jsLength (s : String) : Nat :=
  s.toList.length

/-- Model of the JavaScript emptiness test on strings (`!s` is true exactly
for the empty string). -/
def jsIsEmpty (s : String) : Bool :=
  s.toList.isEmpty

/-- Split a character list at every occurrence of the separator character:
model of `s.split(sep)` for a one-character separator.  Mirrors the
JavaScript semantics: `"".split(sep)` is `[""]`, and separators at the ends
produce empty fragments. -/
def splitOnChar (sep : Char) : List Char → List (List Char)
  | [] => [[]]
  | c :: cs =>
    match splitOnChar sep cs with
    | [] => [[c]]
    | r :: rs => if c == sep then [] :: r :: rs else (c :: r) :: rs

/-- Model of `s.split('\n')` for JavaScript strings. -/
def jsSplitNewline (s : String) : List String :=
  (splitOnChar '\x0a' s.toList).map String.mk

/-- A commit record as consumed by the analytics components
(`CommitData` in `CommitAnalytics.tsx`): `sha`, author name,
optional `author.login` / avatar, the author date (as UTC day number),
and the commit message. -/
structure CommitData where
  sha : String
  authorName : String
  authorLogin : Option String
  avatarUrl : Option String
  day : Int
  message : String
  deriving DecidableEq, Repr

/-- The seven pattern buckets of the quality scorer. -/
inductive Pattern
  | fix
  | feat
  | refactor
  | docs
  | test
  | style
  | other
  deriving DecidableEq, Repr

/-- Condition of the first branch of the classification chain
(`lowerMessage.includes('fix') || ... 'bug' || ... 'patch'`). -/
def matchesFix (lm : String) : Bool :=
  strIncludes lm "fix" || strIncludes lm "bug" || strIncludes lm "patch"

/-- Condition of the `feat` branch. -/
def matchesFeat (lm : String) : Bool :=
  strIncludes lm "feat" || strIncludes lm "add" || strIncludes lm "new"

/-- Condition of the `refactor` branch. -/
def matchesRefactor (lm : String) : Bool :=
  strIncludes lm "refactor" || strIncludes lm "cleanup" || strIncludes lm "reorganize"

/-- Condition of the `docs` branch. -/
def matchesDocs (lm : String) : Bool :=
  strIncludes lm "doc" || strIncludes lm "readme" || strIncludes lm "comment"

/-- Condition of the `test` branch. -/
def matchesTest (lm : String) : Bool :=
  strIncludes lm "test" || strIncludes lm "spec"

/-- Condition of the `style` branch. -/
def matchesStyle (lm : String) : Bool :=
  strIncludes lm "style" || strIncludes lm "format" || strIncludes lm "lint"

/-- The if/else classification chain of `CommitQualityAnalysis.tsx`
lines 132-148, applied to a (trimmed) commit message: the message is
lower-cased and the six keyword groups are tried in order, `other`
catching everything else. -/
def classifyMessage (message : String) : Pattern :=
  let lowerMessage := jsToLower message
  if matchesFix lowerMessage then .fix
  else if matchesFeat lowerMessage then .feat
  else if matchesRefactor lowerMessage then .refactor
  else if matchesDocs lowerMessage then .docs
  else if matchesTest lowerMessage then .test
  else if matchesStyle lowerMessage then .style
  else .other

/-- The seven bucket counters. -/
structure CommitPatterns where
  fix : Nat
  feat : Nat
  refactor : Nat
  docs : Nat
  test : Nat
  style : Nat
  other : Nat
  deriving DecidableEq, Repr

/-- Sum of the seven bucket counters. -/
def CommitPatterns.total (p : CommitPatterns) : Nat :=
  p.fix + p.feat + p.refactor + p.docs + p.test + p.style + p.other

/-- The metrics record produced by `analyzeCommitQuality`
(the `QualityMetrics` interface, minus the display-only README preview). -/
structure QualityMetrics where
  totalCommits : Nat
  commitsWithDescription : Nat
  emptyMessages : Nat
  shortMessages : Nat
  averageMessageLength : Int
  hasReadme : Bool
  commitPatterns : CommitPatterns
  deriving DecidableEq, Repr

/-- Non-blank lines of a message: `message.split('\n').filter(line => line.trim())`. -/
def nonBlankLines (message : String) : List String :=
  (jsSplitNewline message).filter (fun line => !jsIsEmpty (jsTrim line))

/-- A message counts as described when it has more than one non-blank line
(`lines.length > 1`). -/
def isDescribed (message : String) : Bool :=
  1 < (nonBlankLines message).length

/-- Number of (already trimmed) messages the classification chain puts in
bucket `p`. -/
def countPattern (msgs : List String) (p : Pattern) : Nat :=
  (msgs.filter (fun m => classifyMessage m == p)).length

/-- The analysis loop of `analyzeCommitQuality` (`CommitQualityAnalysis.tsx`
lines 99-162): every message is trimmed; the loop counts empty messages,
short (`length < 10`) non-empty messages, described messages, sums message
lengths, and classifies each message into one pattern bucket; the average
length is `Math.round(totalMessageLength / totalCommits)` guarded by
`totalCommits > 0`.  JavaScript `Math.round` is `round` on `ℚ`
(both send `x` to `⌊x + 1/2⌋`). -/
def analyzeCommitQuality (commits : List CommitData) (hasReadme : Bool) : QualityMetrics :=
  let msgs := commits.map (fun c => jsTrim c.message)
  let totalCommits := commits.length
  let emptyMessages := (msgs.filter (fun m => jsIsEmpty m)).length
  let shortMessages := (msgs.filter (fun m => !jsIsEmpty m && jsLength m < 10)).length
  let commitsWithDescription := (msgs.filter (fun m => isDescribed m)).length
  let totalMessageLength := (msgs.map jsLength).sum
  let averageMessageLength : Int :=
    if 0 < totalCommits then round ((totalMessageLength : ℚ) / (totalCommits : ℚ)) else 0
  { totalCommits := totalCommits
    commitsWithDescription := commitsWithDescription
    emptyMessages := emptyMessages
    shortMessages := shortMessages
    averageMessageLength := averageMessageLength
    hasReadme := hasReadme
    commitPatterns :=
      { fix := countPattern msgs .fix
        feat := countPattern msgs .feat
        refactor := countPattern msgs .refactor
        docs := countPattern msgs .docs
        test := countPattern msgs .test
        style := countPattern msgs .style
        other := countPattern msgs .other } }

/-- The quality score of `CommitQualityAnalysis.tsx` lines 195-200:
`Math.round((described / max(total,1)) * 40 + ((total - empty - short) /
max(total,1)) * 30 + (hasReadme ? 20 : 0) + (avgLength > 20 ? 10 : 0))`. -/
def qualityScore (m : QualityMetrics) : Int :=
  let t : ℚ := ((max m.totalCommits 1 : ℕ) : ℚ)
  round (((m.commitsWithDescription : ℚ) / t) * 40
    + (((m.totalCommits : ℚ) - (m.emptyMessages : ℚ) - (m.shortMessages : ℚ)) / t) * 30
    + (if m.hasReadme then (20 : ℚ) else 0)
    + (if 20 < m.averageMessageLength then (10 : ℚ) else 0))

/-- The score formula exactly as the specification words it:
`round(40*described/total + 30*(total-empty-short)/total + 20*(hasReadme?1:0)
+ 10*(avgMessageLength>20?1:0))` with `total` floored at 1. -/
def specQualityScore (described total empty short : Nat) (hasReadme : Bool)
    (avgLen : Int) : Int :=
  let t : ℚ := ((max total 1 : ℕ) : ℚ)
  round (40 * (described : ℚ) / t
    + 30 * ((total : ℚ) - (empty : ℚ) - (short : ℚ)) / t
    + 20 * (if hasReadme then (1 : ℚ) else 0)
    + 10 * (if 20 < avgLen then (1 : ℚ) else 0))

/-! ### Commit aggregator (`CommitAnalytics.tsx`, `processCommitData`) -/

/-- Number of commits falling on day `d`: the value `commitsByDate[d] || 0`
of the date record built by the reduce on lines 144-148 (the record maps
each day to the number of commits on it, absent days defaulting to 0). -/
def commitsOnDay (commits : List CommitData) (d : Int) : Nat :=
  (commits.filter (fun c => c.day == d)).length

/-- The `while (currentDate <= endDate)` loop of `generateDateRange`
(lines 161-170): the days from `f` to `t` inclusive, in order, empty when
`f > t`. -/
def dayRangeList (f t : Int) : List Int :=
  if f ≤ t then (List.range ((t - f).toNat + 1)).map (fun (i : Nat) => f + (i : Int)) else []

/-- `generateDateRange` (lines 151-171): the active window's days, or the
trailing 30 days ending `today` when no window is set. -/
def generateDateRange (today : Int) (dateRange : Option (Int × Int)) : List Int :=
  match dateRange with
  | Option.none => (List.range 30).map (fun (i : Nat) => today - (29 - (i : Int)))
  | some (f, t) => dayRangeList f t

/-- The `commitTrend` series (lines 173-177): one `{date, commits}` point
per generated day (the display label is a pure function of the day, kept
here as the day itself). -/
def commitTrendSeries (commits : List CommitData) (today : Int)
    (dateRange : Option (Int × Int)) : List (Int × Nat) :=
  (generateDateRange today dateRange).map (fun d => (d, commitsOnDay commits d))

/-- The name a commit is attributed to: `commit.author?.login ||
commit.commit.author.name` (an absent or empty login string falls back to
the author name, following JavaScript truthiness). -/
def contributorName (c : CommitData) : String :=
  match c.authorLogin with
  | some login => if jsIsEmpty login then c.authorName else login
  | Option.none => c.authorName

/-- One step of the `contributorCounts` reduce (lines 180-189): bump the
count of `name`, inserting the key at the end on first sight.  The
association list records the object's properties in creation (= first-seen)
order; the enumeration order `Object.entries` later imposes on them is
applied separately by `jsObjectEntries`.  The avatar, display-only, is
dropped. -/
def bumpContributor (acc : List (String × Nat)) (name : String) : List (String × Nat) :=
  if acc.any (fun p => p.1 == name) then
    acc.map (fun p => if p.1 == name then (p.1, p.2 + 1) else p)
  else acc ++ [(name, 1)]

/-- The `contributorCounts` record of lines 180-189, as an association list
whose keys appear in property-creation (= first-seen) order.  This is the
record as a data structure; reading it out with `Object.entries` reorders
the keys (see `jsObjectEntries`). -/
def contributorCounts (commits : List CommitData) : List (String × Nat) :=
  commits.foldl (fun acc c => bumpContributor acc (contributorName c)) []

/-- The array-index value of a string key, when it is one: per ECMA-262 a
string is an array-index key when it is the canonical decimal
representation of an integer `0 ≤ n < 2^32 - 1` (canonical = the digits
round-trip through `ToString`, which excludes leading zeros, signs,
non-digits and out-of-range values). -/
def canonicalArrayIndex (s : String) : Option Nat :=
  let n := s.toList.foldl (fun acc d => acc * 10 + (d.toNat - 48)) 0
  if Nat.repr n == s && n < 2 ^ 32 - 1 then some n else Option.none

/-- The numeric value an array-index key is ordered by (`0` for other
keys, which the numeric sort never receives). -/
def indexKeyVal (p : String × Nat) : Nat :=
  (canonicalArrayIndex p.1).getD 0

/-- Ascending order on array-index keys. -/
def idxLe (a b : String × Nat) : Prop :=
  indexKeyVal a ≤ indexKeyVal b

instance idxLeDecidable : DecidableRel idxLe :=
  fun a b => Nat.decLe (indexKeyVal a) (indexKeyVal b)

instance idxLeTotal : IsTotal (String × Nat) idxLe :=
  ⟨fun a b => Nat.le_total _ _⟩

instance idxLeTrans : IsTrans (String × Nat) idxLe :=
  ⟨fun a b c => Nat.le_trans⟩

/-- The enumeration order `Object.entries` gives the record's entries
(ECMA-262 OrdinaryOwnPropertyKeys): array-index keys first, in ascending
numeric order, then the remaining string keys in property-creation order.
The ascending sort is realized by an insertion sort; array-index keys are
distinct, so any sorting algorithm yields this one order. -/
def jsObjectEntries (acc : List (String × Nat)) : List (String × Nat) :=
  List.insertionSort idxLe (acc.filter (fun p => (canonicalArrayIndex p.1).isSome))
    ++ acc.filter (fun p => !(canonicalArrayIndex p.1).isSome)

/-- How `Object.entries` orders two entries of the contributor record:
both array-index keys by numeric value; an array-index key before an
ordinary key; two ordinary keys by first appearance in the name sequence
`ns`. -/
def entryOrder (ns : List String) (a b : String × Nat) : Prop :=
  match canonicalArrayIndex a.1, canonicalArrayIndex b.1 with
  | some i, some j => i < j
  | some _, Option.none => True
  | Option.none, some _ => False
  | Option.none, Option.none => ns.indexOf a.1 < ns.indexOf b.1

/-- `topContributors` (lines 191-198): `Object.entries(contributorCounts)`
— the record's entries in enumeration order — sorted by count descending
(comparator `(a, b) => b.count - a.count`; JavaScript
`Array.prototype.sort` is stable), keeping the first five. -/
def topContributorsList (commits : List CommitData) : List (String × Nat) :=
  ((jsObjectEntries (contributorCounts commits)).mergeSort
      (fun a b => decide (b.2 ≤ a.2))).take 5

/-- The fields of `processCommitData`'s result the claims concern
(`AnalyticsData` minus the display-only weekday histogram). -/
structure AnalyticsData where
  totalCommits : Nat
  commitTrend : List (Int × Nat)
  topContributors : List (String × Nat)
  recentCommits : List CommitData
  deriving DecidableEq, Repr

/-- `processCommitData` (`CommitAnalytics.tsx` lines 142-219):
`totalCommits = commits.length`, the trend series, the contributor
ranking, and `recentCommits = commits.slice(0, 10)`. -/
def processCommitData (commits : List CommitData) (today : Int)
    (dateRange : Option (Int × Int)) : AnalyticsData :=
  { totalCommits := commits.length
    commitTrend := commitTrendSeries commits today dateRange
    topContributors := topContributorsList commits
    recentCommits := commits.take 10 }

/-- The quality pipeline as wired in `CommitAnalytics.tsx` lines 466-471:
the quality component receives `analytics.recentCommits`, so the analysis
runs over the recent-commits slice of the fetched list. -/
def fetchedQualityMetrics (commits : List CommitData) (today : Int)
    (dateRange : Option (Int × Int)) (hasReadme : Bool) : QualityMetrics :=
  analyzeCommitQuality (processCommitData commits today dateRange).recentCommits hasReadme

/-! ### Roster loader (`FileUpload.tsx`, `processExcelFile`) -/

/-- A spreadsheet cell value as produced by `sheet_to_json`: a string or a
number. -/
inductive CellValue
  | str (s : String)
  | num (n : Int)
  deriving DecidableEq, Repr

/-- JavaScript truthiness of a cell value (the empty string and `0` are
falsy). -/
def CellValue.truthy : CellValue → Bool
  | .str s => !jsIsEmpty s
  | .num n => n != 0

/-- The `typeof v === 'string'` test. -/
def CellValue.isStr : CellValue → Bool
  | .str _ => true
  | .num _ => false

/-- A parsed spreadsheet row: each required column is present (`some`) or
absent (`none`). -/
structure SheetRow where
  TeamName : Option CellValue
  GitHubURL : Option CellValue
  deriving DecidableEq, Repr

/-- The three upload-time error kinds of the roster loader. -/
inductive UploadError
  | emptyFile
  | schemaError
  | noValidRows
  deriving DecidableEq, Repr

/-- The row filter of `FileUpload.tsx` lines 45-49: `team.TeamName &&
team.GitHubURL && typeof team.TeamName === 'string' && typeof team.GitHubURL
=== 'string'` — both fields present, truthy (hence non-empty) and strings. -/
def isValidTeam (r : SheetRow) : Bool :=
  match r.TeamName, r.GitHubURL with
  | some a, some b => a.truthy && b.truthy && a.isStr && b.isStr
  | _, _ => false

/-- The row predicate as claim C5 literally words it: both fields present
and strings (no truthiness requirement). -/
def presentAndString (r : SheetRow) : Bool :=
  match r.TeamName, r.GitHubURL with
  | some a, some b => a.isStr && b.isStr
  | _, _ => false

/-- The validation part of `processExcelFile` (`FileUpload.tsx` lines
34-55), after the spreadsheet library has produced the row objects:
zero rows fail as `EmptyFileError`; a first row missing either required
column fails as `SchemaError`; otherwise the rows are filtered by
`isValidTeam`, an empty result failing as `NoValidRowsError`. -/
def processExcelFile (rows : List SheetRow) : Except UploadError (List SheetRow) :=
  match rows with
  | [] => .error .emptyFile
  | firstRow :: _ =>
    if firstRow.TeamName.isNone || firstRow.GitHubURL.isNone then .error .schemaError
    else
      let validTeams := rows.filter isValidTeam
      if validTeams.isEmpty then .error .noValidRows
      else .ok validTeams

/-! ### Repository locator parser (`extractRepoInfo`) -/

/-- An `{owner, repo}` pair. -/
structure RepoInfo where
  owner : String
  repo : String
  deriving DecidableEq, Repr

/-- The locator-parse error (both throw sites of `extractRepoInfo` surface
as the same user-visible failure). -/
inductive UrlError
  | invalidUrl
  deriving DecidableEq, Repr

/-- Split a character list at its first `:`, requiring it to be followed by
`//`; returns the scheme characters and the remainder after `://`. -/
def schemeSplit : List Char → Option (List Char × List Char)
  | [] => Option.none
  | c :: cs =>
    if c == ':' then
      match cs with
      | '/' :: '/' :: rest => some ([], rest)
      | _ => Option.none
    else
      match schemeSplit cs with
      | some (sch, rest) => some (c :: sch, rest)
      | Option.none => Option.none

/-- Model of the platform URL constructor `new URL(url)`, restricted to the
absolute `scheme://authority/path` shape the roster URLs take: parsing
succeeds when the string has a non-empty alphabetic scheme followed by
`://`, and yields the pathname — everything from the first `/` after the
authority (no-path URLs get an empty pathname, which has no non-empty
segments, exactly as the real parser's `"/"` pathname). -/
def urlPathChars (url : String) : Option (List Char) :=
  match schemeSplit url.toList with
  | Option.none => Option.none
  | some (sch, rest) =>
    if sch.isEmpty || !sch.all Char.isAlpha then Option.none
    else some (rest.dropWhile (fun c => c != '/'))

/-- `extractRepoInfo` (`CommitAnalytics.tsx` lines 68-79): parse the URL,
split the pathname on `/`, keep non-empty segments (`filter(Boolean)`), and
require at least two, the first two becoming owner and repository; any
parse failure or segment shortage is the single invalid-URL error. -/
def extractRepoInfo (url : String) : Except UrlError RepoInfo :=
  match urlPathChars url with
  | Option.none => .error .invalidUrl
  | some path =>
    match (splitOnChar '/' path).filter (fun s => !s.isEmpty) with
    | p0 :: p1 :: _ => .ok ⟨String.mk p0, String.mk p1⟩
    | _ => .error .invalidUrl

/-! ### Credential holder (`GitHubTokenManager.tsx`, `validateToken`) -/

/-- The tri-state (plus in-flight) credential status. -/
inductive TokenStatus
  | none
  | valid
  | invalid
  | checking
  deriving DecidableEq, Repr

/-- Outcome of the identity-check request `GET /user`: a success response
(`response.ok`), a non-success response, or a transport failure (`fetch`
throws). -/
inductive IdentityCheck
  | success
  | httpError
  | transportError
  deriving DecidableEq, Repr

/-- `validateToken` (`GitHubTokenManager.tsx` lines 37-68) as a transition
on (status, persisted token): a blank (whitespace-only) token sets the
status to `none` and returns before any request or storage access;
otherwise the identity check runs: a success response persists the
submitted token and marks `valid`; a non-success response or a thrown
fetch removes the persisted token and marks `invalid`. -/
def validateToken (tokenToValidate : String) (stored : Option String)
    (check : IdentityCheck) : TokenStatus × Option String :=
  if jsIsEmpty (jsTrim tokenToValidate) then (.none, stored)
  else
    match check with
    | .success => (.valid, some tokenToValidate)
    | .httpError => (.invalid, Option.none)
    | .transportError => (.invalid, Option.none)

/-! ### Event aggregator (`processGitEvents`) -/

/-- A repository event as consumed by the activity component: the event
type tag, actor, and the UTC day of `created_at`. -/
structure GitEvent where
  id : String
  type : String
  actorLogin : String
  avatarUrl : String
  day : Int
  deriving DecidableEq, Repr

/-- Per-day push / pull-request / merge counters. -/
structure DayCounts where
  pushes : Nat
  pulls : Nat
  merges : Nat
  deriving DecidableEq, Repr

/-- Map-update of the entry keyed `d` (entries with other keys kept). -/
def bumpAt (acc : List (Int × DayCounts)) (d : Int) (f : DayCounts → DayCounts) :
    List (Int × DayCounts) :=
  acc.map (fun p => if p.1 == d then (p.1, f p.2) else p)

/-- The `if (!dailyActivity[date]) dailyActivity[date] = {0,0,0}`
initialization. -/
def ensureDay (acc : List (Int × DayCounts)) (d : Int) : List (Int × DayCounts) :=
  if acc.any (fun p => p.1 == d) then acc else acc ++ [(d, ⟨0, 0, 0⟩)]

/-- One step of the `events.forEach` loop of `processGitEvents`, restricted
to the `dailyActivity` record: the day entry is initialized if absent, then
the counter matching the event type is bumped (`PushEvent` → pushes,
`PullRequestEvent` → pulls, `PullRequestReviewEvent` and `MergeEvent` →
merges, anything else left untouched). -/
def bumpDaily (acc : List (Int × DayCounts)) (e : GitEvent) : List (Int × DayCounts) :=
  let acc' := ensureDay acc e.day
  if e.type == "PushEvent" then
    bumpAt acc' e.day (fun c => ⟨c.pushes + 1, c.pulls, c.merges⟩)
  else if e.type == "PullRequestEvent" then
    bumpAt acc' e.day (fun c => ⟨c.pushes, c.pulls + 1, c.merges⟩)
  else if e.type == "PullRequestReviewEvent" || e.type == "MergeEvent" then
    bumpAt acc' e.day (fun c => ⟨c.pushes, c.pulls, c.merges + 1⟩)
  else acc'

/-- The `dailyActivity` record after the `events.forEach` loop. -/
def dailyRecord (events : List GitEvent) : List (Int × DayCounts) :=
  events.foldl bumpDaily []

/-- Lookup with the `dailyActivity[date]?.x || 0` default. -/
def dailyLookup (acc : List (Int × DayCounts)) (d : Int) : DayCounts :=
  match acc.find? (fun p => p.1 == d) with
  | some p => p.2
  | Option.none => ⟨0, 0, 0⟩

/-- The `last30Days` array (lines 192-196): the 30 days ending `today`. -/
def last30Days (today : Int) : List Int :=
  (List.range 30).map (fun (i : Nat) => today - (29 - (i : Int)))

/-- The `dailyActivityArray` of `processGitEvents` (lines 198-203): one
entry per trailing day, with the per-type counts defaulting to zero. -/
def dailyActivityArray (events : List GitEvent) (today : Int) :
    List (Int × DayCounts) :=
  (last30Days today).map (fun d => (d, dailyLookup (dailyRecord events) d))

/-- The events of one of the three counted type tags falling on day `d`. -/
def matchingEventsOn (events : List GitEvent) (d : Int) : List GitEvent :=
  events.filter (fun e => (e.type == "PushEvent" || e.type == "PullRequestEvent"
    || e.type == "PullRequestReviewEvent" || e.type == "MergeEvent") && e.day == d)

/-! ### Scenario constants used by concrete claims -/

/-- A commit with the given message (remaining fields immaterial to the
quality analysis). -/
def mkCommit (msg : String) : CommitData :=
  ⟨"sha", "alice", Option.none, Option.none, 0, msg⟩

/-- The three-message commit sequence of the C8 scenario. -/
def c8commits : List CommitData :=
  [mkCommit "", mkCommit "fix bug", mkCommit "Add new feature\n\nDetailed body"]

/-- A commit authored under the given name (no login; remaining fields
immaterial to the contributor ranking). -/
def mkCommitBy (name : String) : CommitData :=
  ⟨"sha", name, Option.none, Option.none, 0, "msg"⟩

/-- Two commits by the all-digit contributor names "9" then "2": legal
input (git author names and logins can be all digits) on which
`Object.entries` enumerates `"2"` before the first-seen `"9"`. -/
def digitNameCommits : List CommitData :=
  [mkCommitBy "9", mkCommitBy "2"]

/-! ## Helper lemmas -/

theorem length_filter_or_of_disjoint {α : Type} (p q : α → Bool) (l : List α)
    (h : ∀ a ∈ l, ¬(p a = true ∧ q a = true)) :
    (l.filter (fun a => p a || q a)).length
      = (l.filter p).length + (l.filter q).length := by
  induction l with
  | nil => simp
  | cons a l ih =>
    have ih' := ih fun b hb => h b (List.mem_cons_of_mem a hb)
    cases hp : p a <;> cases hq : q a
    · simp [List.filter_cons, hp, hq, ih']
    · simp [List.filter_cons, hp, hq, ih']
      omega
    · simp [List.filter_cons, hp, hq, ih']
      omega
    · exact absurd ⟨hp, hq⟩ (h a (List.mem_cons_self a l))

theorem round_nonneg_le_hundred {x : ℚ} (h0 : 0 ≤ x) (h1 : x ≤ 100) :
    0 ≤ round x ∧ round x ≤ 100 := by
  rw [round_eq]
  constructor
  · exact Int.le_floor.mpr (by push_cast; linarith)
  · have hlt : ⌊x + 1 / 2⌋ < 101 := Int.floor_lt.mpr (by push_cast; linarith)
    omega

theorem qualityScore_eq_spec (m : QualityMetrics) :
    qualityScore m = specQualityScore m.commitsWithDescription m.totalCommits
      m.emptyMessages m.shortMessages m.hasReadme m.averageMessageLength := by
  unfold qualityScore specQualityScore
  split_ifs <;> ring_nf

theorem qualityScore_range (m : QualityMetrics)
    (hd : m.commitsWithDescription ≤ m.totalCommits)
    (hes : m.emptyMessages + m.shortMessages ≤ m.totalCommits) :
    0 ≤ qualityScore m ∧ qualityScore m ≤ 100 := by
  unfold qualityScore
  have hmax : m.totalCommits ≤ max m.totalCommits 1 := le_max_left _ _
  have ht1 : (1 : ℚ) ≤ ((max m.totalCommits 1 : ℕ) : ℚ) := by
    exact_mod_cast le_max_right m.totalCommits 1
  have ht0 : (0 : ℚ) < ((max m.totalCommits 1 : ℕ) : ℚ) := by linarith
  have hdq : (m.commitsWithDescription : ℚ) ≤ ((max m.totalCommits 1 : ℕ) : ℚ) := by
    exact_mod_cast le_trans hd hmax
  have hesq : (m.emptyMessages : ℚ) + (m.shortMessages : ℚ) ≤ (m.totalCommits : ℚ) := by
    exact_mod_cast hes
  have htq : (m.totalCommits : ℚ) ≤ ((max m.totalCommits 1 : ℕ) : ℚ) := by
    exact_mod_cast hmax
  have hA0 : (0 : ℚ) ≤ (m.commitsWithDescription : ℚ) / ((max m.totalCommits 1 : ℕ) : ℚ) :=
    div_nonneg (by positivity) (le_of_lt ht0)
  have hA1 : (m.commitsWithDescription : ℚ) / ((max m.totalCommits 1 : ℕ) : ℚ) ≤ 1 :=
    (div_le_one ht0).mpr hdq
  have hB0 : (0 : ℚ) ≤ ((m.totalCommits : ℚ) - (m.emptyMessages : ℚ) - (m.shortMessages : ℚ))
      / ((max m.totalCommits 1 : ℕ) : ℚ) :=
    div_nonneg (by linarith) (le_of_lt ht0)
  have hB1 : ((m.totalCommits : ℚ) - (m.emptyMessages : ℚ) - (m.shortMessages : ℚ))
      / ((max m.totalCommits 1 : ℕ) : ℚ) ≤ 1 :=
    (div_le_one ht0).mpr (by linarith)
  apply round_nonneg_le_hundred
  · split_ifs <;> nlinarith
  · split_ifs <;> nlinarith

theorem analyze_described_le (commits : List CommitData) (hasReadme : Bool) :
    (analyzeCommitQuality commits hasReadme).commitsWithDescription
      ≤ (analyzeCommitQuality commits hasReadme).totalCommits := by
  simp only [analyzeCommitQuality]
  calc ((commits.map fun c => jsTrim c.message).filter fun m => isDescribed m).length
      ≤ (commits.map fun c => jsTrim c.message).length := List.length_filter_le _ _
    _ = commits.length := List.length_map _ _

theorem analyze_empty_short_le (commits : List CommitData) (hasReadme : Bool) :
    (analyzeCommitQuality commits hasReadme).emptyMessages
      + (analyzeCommitQuality commits hasReadme).shortMessages
      ≤ (analyzeCommitQuality commits hasReadme).totalCommits := by
  simp only [analyzeCommitQuality]
  have hdisj := length_filter_or_of_disjoint (fun m => jsIsEmpty m)
    (fun m => !jsIsEmpty m && decide (jsLength m < 10))
    (commits.map fun c => jsTrim c.message)
    (by intro a _ hc; rcases hc with ⟨h1, h2⟩; simp [h1] at h2)
  calc ((commits.map fun c => jsTrim c.message).filter (fun m => jsIsEmpty m)).length
        + ((commits.map fun c => jsTrim c.message).filter
            (fun m => !jsIsEmpty m && decide (jsLength m < 10))).length
      = ((commits.map fun c => jsTrim c.message).filter
          (fun m => jsIsEmpty m || (!jsIsEmpty m && decide (jsLength m < 10)))).length :=
        hdisj.symm
    _ ≤ (commits.map fun c => jsTrim c.message).length := List.length_filter_le _ _
    _ = commits.length := List.length_map _ _

/-- C1: for every commit sequence and README flag, the quality score equals
`round(40*described/total + 30*(total-empty-short)/total + 20*(hasReadme?1:0)
+ 10*(avgMessageLength>20?1:0))` with `total` floored at 1; the score is an
integer in `[0, 100]`; and the empty commit sequence yields
`described = empty = short = 0` with no division by zero (the floored
denominator is positive). -/
theorem C1_quality_score (commits : List CommitData) (hasReadme : Bool) :
    qualityScore (analyzeCommitQuality commits hasReadme)
      = specQualityScore
          (analyzeCommitQuality commits hasReadme).commitsWithDescription
          (analyzeCommitQuality commits hasReadme).totalCommits
          (analyzeCommitQuality commits hasReadme).emptyMessages
          (analyzeCommitQuality commits hasReadme).shortMessages
          hasReadme
          (analyzeCommitQuality commits hasReadme).averageMessageLength
    ∧ 0 ≤ qualityScore (analyzeCommitQuality commits hasReadme)
    ∧ qualityScore (analyzeCommitQuality commits hasReadme) ≤ 100
    ∧ (0 : ℚ) < ((max (analyzeCommitQuality commits hasReadme).totalCommits 1 : ℕ) : ℚ)
    ∧ (commits = [] →
        (analyzeCommitQuality commits hasReadme).commitsWithDescription = 0
        ∧ (analyzeCommitQuality commits hasReadme).emptyMessages = 0
        ∧ (analyzeCommitQuality commits hasReadme).shortMessages = 0) := by
  have hrange := qualityScore_range (analyzeCommitQuality commits hasReadme)
    (analyze_described_le commits hasReadme) (analyze_empty_short_le commits hasReadme)
  have hread : (analyzeCommitQuality commits hasReadme).hasReadme = hasReadme := by
    simp [analyzeCommitQuality]
  refine ⟨?_, hrange.1, hrange.2, ?_, ?_⟩
  · rw [qualityScore_eq_spec, hread]
  · have : (1 : ℚ) ≤ ((max (analyzeCommitQuality commits hasReadme).totalCommits 1 : ℕ) : ℚ) := by
      exact_mod_cast le_max_right (analyzeCommitQuality commits hasReadme).totalCommits 1
    linarith
  · intro h
    subst h
    simp [analyzeCommitQuality]

/-- Witness for C1 at the empty commit sequence (all three hypotheses of the
empty-sequence clause discharged at `rfl`). -/
theorem C1_witness :
    0 ≤ qualityScore (analyzeCommitQuality [] false)
    ∧ qualityScore (analyzeCommitQuality [] false) ≤ 100
    ∧ (analyzeCommitQuality [] false).commitsWithDescription = 0
    ∧ (analyzeCommitQuality [] false).emptyMessages = 0
    ∧ (analyzeCommitQuality [] false).shortMessages = 0 :=
  ⟨(C1_quality_score [] false).2.1, (C1_quality_score [] false).2.2.1,
    ((C1_quality_score [] false).2.2.2.2 rfl).1,
    ((C1_quality_score [] false).2.2.2.2 rfl).2.1,
    ((C1_quality_score [] false).2.2.2.2 rfl).2.2⟩

theorem countPattern_cons (m : String) (msgs : List String) (p : Pattern) :
    countPattern (m :: msgs) p
      = (if classifyMessage m = p then 1 else 0) + countPattern msgs p := by
  simp only [countPattern, List.filter_cons, beq_iff_eq]
  split_ifs with h <;> simp [Nat.add_comm]

theorem countPattern_total (msgs : List String) :
    countPattern msgs .fix + countPattern msgs .feat + countPattern msgs .refactor
      + countPattern msgs .docs + countPattern msgs .test + countPattern msgs .style
      + countPattern msgs .other = msgs.length := by
  induction msgs with
  | nil => simp [countPattern]
  | cons m ms ih =>
    simp only [countPattern_cons, List.length_cons]
    cases h : classifyMessage m <;> simp [h] <;> omega

/-- C3: pattern classification puts every message in exactly one of the
seven buckets, tested in the precedence order fix → feat → refactor →
docs → test → style → other, by case-insensitive substring match; hence
the seven bucket counts of the quality analysis sum to the commit count. -/
theorem C3_classification (commits : List CommitData) (hasReadme : Bool) (msg : String) :
    (classifyMessage msg = .fix ↔ matchesFix (jsToLower msg) = true)
    ∧ (classifyMessage msg = .feat ↔
        matchesFix (jsToLower msg) = false ∧ matchesFeat (jsToLower msg) = true)
    ∧ (classifyMessage msg = .refactor ↔
        matchesFix (jsToLower msg) = false ∧ matchesFeat (jsToLower msg) = false
        ∧ matchesRefactor (jsToLower msg) = true)
    ∧ (classifyMessage msg = .docs ↔
        matchesFix (jsToLower msg) = false ∧ matchesFeat (jsToLower msg) = false
        ∧ matchesRefactor (jsToLower msg) = false ∧ matchesDocs (jsToLower msg) = true)
    ∧ (classifyMessage msg = .test ↔
        matchesFix (jsToLower msg) = false ∧ matchesFeat (jsToLower msg) = false
        ∧ matchesRefactor (jsToLower msg) = false ∧ matchesDocs (jsToLower msg) = false
        ∧ matchesTest (jsToLower msg) = true)
    ∧ (classifyMessage msg = .style ↔
        matchesFix (jsToLower msg) = false ∧ matchesFeat (jsToLower msg) = false
        ∧ matchesRefactor (jsToLower msg) = false ∧ matchesDocs (jsToLower msg) = false
        ∧ matchesTest (jsToLower msg) = false ∧ matchesStyle (jsToLower msg) = true)
    ∧ (classifyMessage msg = .other ↔
        matchesFix (jsToLower msg) = false ∧ matchesFeat (jsToLower msg) = false
        ∧ matchesRefactor (jsToLower msg) = false ∧ matchesDocs (jsToLower msg) = false
        ∧ matchesTest (jsToLower msg) = false ∧ matchesStyle (jsToLower msg) = false)
    ∧ (analyzeCommitQuality commits hasReadme).commitPatterns.total = commits.length := by
  have hsum : (analyzeCommitQuality commits hasReadme).commitPatterns.total
      = commits.length := by
    simp only [analyzeCommitQuality, CommitPatterns.total]
    rw [countPattern_total, List.length_map]
  have hcls : (classifyMessage msg = .fix ↔ matchesFix (jsToLower msg) = true)
      ∧ (classifyMessage msg = .feat ↔
          matchesFix (jsToLower msg) = false ∧ matchesFeat (jsToLower msg) = true)
      ∧ (classifyMessage msg = .refactor ↔
          matchesFix (jsToLower msg) = false ∧ matchesFeat (jsToLower msg) = false
          ∧ matchesRefactor (jsToLower msg) = true)
      ∧ (classifyMessage msg = .docs ↔
          matchesFix (jsToLower msg) = false ∧ matchesFeat (jsToLower msg) = false
          ∧ matchesRefactor (jsToLower msg) = false ∧ matchesDocs (jsToLower msg) = true)
      ∧ (classifyMessage msg = .test ↔
          matchesFix (jsToLower msg) = false ∧ matchesFeat (jsToLower msg) = false
          ∧ matchesRefactor (jsToLower msg) = false ∧ matchesDocs (jsToLower msg) = false
          ∧ matchesTest (jsToLower msg) = true)
      ∧ (classifyMessage msg = .style ↔
          matchesFix (jsToLower msg) = false ∧ matchesFeat (jsToLower msg) = false
          ∧ matchesRefactor (jsToLower msg) = false ∧ matchesDocs (jsToLower msg) = false
          ∧ matchesTest (jsToLower msg) = false ∧ matchesStyle (jsToLower msg) = true)
      ∧ (classifyMessage msg = .other ↔
          matchesFix (jsToLower msg) = false ∧ matchesFeat (jsToLower msg) = false
          ∧ matchesRefactor (jsToLower msg) = false ∧ matchesDocs (jsToLower msg) = false
          ∧ matchesTest (jsToLower msg) = false ∧ matchesStyle (jsToLower msg) = false) := by
    simp only [classifyMessage]
    split_ifs with h1 h2 h3 h4 h5 h6 <;> simp_all
  exact ⟨hcls.1, hcls.2.1, hcls.2.2.1, hcls.2.2.2.1, hcls.2.2.2.2.1,
    hcls.2.2.2.2.2.1, hcls.2.2.2.2.2.2, hsum⟩

/-- C4: the quality analysis of the fetched commit list runs over the
recent-commits slice (`commits.slice(0, 10)`), so the metrics and the
score are unchanged when the fetched list is truncated to its first ten
commits: commits past the tenth never influence the quality score. -/
theorem C4_quality_ignores_tail (commits : List CommitData) (today : Int)
    (dateRange : Option (Int × Int)) (hasReadme : Bool) :
    fetchedQualityMetrics commits today dateRange hasReadme
      = fetchedQualityMetrics (commits.take 10) today dateRange hasReadme
    ∧ qualityScore (fetchedQualityMetrics commits today dateRange hasReadme)
      = qualityScore (fetchedQualityMetrics (commits.take 10) today dateRange hasReadme) := by
  have h : (commits.take 10).take 10 = commits.take 10 := by
    rw [List.take_take]
    norm_num
  have hm : fetchedQualityMetrics commits today dateRange hasReadme
      = fetchedQualityMetrics (commits.take 10) today dateRange hasReadme := by
    simp only [fetchedQualityMetrics, processCommitData, h]
  exact ⟨hm, congrArg qualityScore hm⟩

/-- C7 counterexample: validating a blank token with a credential still in
storage leaves the stored value in place (the code returns before touching
storage), contradicting the claim that a blank submission clears any
stored value. -/
theorem C7_counterexample :
    (validateToken "" (some "abc") .success).1 = .none
    ∧ (validateToken "" (some "abc") .success).2 ≠ Option.none := by
  decide

/-- C7 (amended): a blank token sets the state to "none" and leaves storage
unchanged; a non-success response or transport failure discards any
persisted token and marks "invalid" (so a revoked token leaves no token
persisted); a success response persists the token and marks "valid". -/
theorem C7_validate_transitions (tok : String) (stored : Option String)
    (check : IdentityCheck) :
    (jsIsEmpty (jsTrim tok) = true → validateToken tok stored check = (.none, stored))
    ∧ (jsIsEmpty (jsTrim tok) = false → check ≠ .success →
        validateToken tok stored check = (.invalid, Option.none))
    ∧ (jsIsEmpty (jsTrim tok) = false → check = .success →
        validateToken tok stored check = (.valid, some tok)) := by
  refine ⟨fun h => by simp [validateToken, h], fun h hc => ?_, fun h hc => ?_⟩
  · cases check <;> simp_all [validateToken]
  · subst hc; simp [validateToken, h]

/-- Witness for C7: the revoked-token scenario — non-blank token, identity
check returns non-success — ends "invalid" with nothing persisted. -/
theorem C7_witness :
    validateToken "ghp_revoked" (some "ghp_revoked") .httpError
      = (.invalid, Option.none) :=
  (C7_validate_transitions "ghp_revoked" (some "ghp_revoked") .httpError).2.1
    (by decide) (by decide)

/-- C8 counterexample: in the three-message scenario the message
`"fix bug"` has trimmed length 7 < 10, so the short-message count is 1,
not 0 as the claim states. -/
theorem C8_counterexample :
    ¬ (analyzeCommitQuality c8commits false).shortMessages = 0 := by
  decide

/-- C8 (amended): the scenario `["", "fix bug", "Add new feature\n\nDetailed
body"]` with no README yields `empty = 1`, `short = 1` (not 0),
`described = 1`, `fix = 1`, `feat = 1`, and the score equals the spec
formula at those counts (average length `round(37/3) = 12`), namely 23. -/
theorem C8_scenario :
    (analyzeCommitQuality c8commits false).emptyMessages = 1
    ∧ (analyzeCommitQuality c8commits false).shortMessages = 1
    ∧ (analyzeCommitQuality c8commits false).commitsWithDescription = 1
    ∧ (analyzeCommitQuality c8commits false).commitPatterns.fix = 1
    ∧ (analyzeCommitQuality c8commits false).commitPatterns.feat = 1
    ∧ (analyzeCommitQuality c8commits false).averageMessageLength = 12
    ∧ qualityScore (analyzeCommitQuality c8commits false) = specQualityScore 1 3 1 1 false 12
    ∧ qualityScore (analyzeCommitQuality c8commits false) = 23 := by
  have h1 : (analyzeCommitQuality c8commits false).commitsWithDescription = 1 := by decide
  have h2 : (analyzeCommitQuality c8commits false).totalCommits = 3 := by decide
  have h3 : (analyzeCommitQuality c8commits false).emptyMessages = 1 := by decide
  have h4 : (analyzeCommitQuality c8commits false).shortMessages = 1 := by decide
  have h6 : (analyzeCommitQuality c8commits false).hasReadme = false := by decide
  have h5 : (analyzeCommitQuality c8commits false).averageMessageLength = 12 := by
    have hs : ((c8commits.map (fun c => jsTrim c.message)).map jsLength).sum = 37 := by decide
    have hl : c8commits.length = 3 := by decide
    simp only [analyzeCommitQuality, hs, hl]
    norm_num [round_eq, Int.floor_eq_iff]
  have hscore : qualityScore (analyzeCommitQuality c8commits false) = 23 := by
    rw [qualityScore, h1, h2, h3, h4, h5, h6]
    norm_num [round_eq, Int.floor_eq_iff]
  have hspec : specQualityScore 1 3 1 1 false 12 = 23 := by
    rw [specQualityScore]
    norm_num [round_eq, Int.floor_eq_iff]
  exact ⟨h3, h4, h1, by decide, by decide, h5, by rw [hscore, hspec], hscore⟩

theorem beq_eq_decide_int (a b : Int) : (a == b) = decide (a = b) := by
  rw [Bool.eq_iff_iff]
  simp

theorem map_fst_pairs (l : List Int) (g : Int → Nat) :
    (l.map fun d => (d, g d)).map Prod.fst = l := by
  induction l with
  | nil => rfl
  | cons a l ih => simp [ih]

theorem map_snd_pairs (l : List Int) (g : Int → Nat) :
    (l.map fun d => (d, g d)).map Prod.snd = l.map g := by
  induction l with
  | nil => rfl
  | cons a l ih => simp [ih]

theorem trend_sum (commits : List CommitData) (days : List Int) (hnd : days.Nodup) :
    (days.map fun d => commitsOnDay commits d).sum
      = (commits.filter fun c => decide (c.day ∈ days)).length := by
  induction days with
  | nil => simp
  | cons d ds ih =>
    have hd : d ∉ ds := (List.nodup_cons.mp hnd).1
    have ih' := ih (List.nodup_cons.mp hnd).2
    simp only [List.map_cons, List.sum_cons, ih']
    have hdisj : ∀ c ∈ commits,
        ¬((c.day == d) = true ∧ (decide (c.day ∈ ds)) = true) := by
      intro c _ hc
      rcases hc with ⟨h1, h2⟩
      have h1' : c.day = d := by simpa using h1
      have h2' : c.day ∈ ds := of_decide_eq_true h2
      exact hd (h1' ▸ h2')
    have hsplit := length_filter_or_of_disjoint (fun c => c.day == d)
      (fun c => decide (c.day ∈ ds)) commits hdisj
    have hcongr : (commits.filter fun c => decide (c.day ∈ d :: ds))
        = commits.filter fun c => (c.day == d) || decide (c.day ∈ ds) := by
      apply List.filter_congr
      intro c _
      rw [beq_eq_decide_int]
      by_cases h1 : c.day = d <;> by_cases h2 : c.day ∈ ds <;>
        simp [List.mem_cons, h1, h2]
    rw [hcongr, hsplit, commitsOnDay]

theorem dayRangeList_length (f t : Int) (h : f ≤ t) :
    (dayRangeList f t).length = (t - f).toNat + 1 := by
  rw [dayRangeList, if_pos h, List.length_map, List.length_range]

theorem mem_dayRangeList (f t d : Int) : d ∈ dayRangeList f t ↔ f ≤ d ∧ d ≤ t := by
  simp only [dayRangeList]
  split_ifs with h
  · simp only [List.mem_map, List.mem_range]
    constructor
    · rintro ⟨i, hi, rfl⟩
      omega
    · intro hb
      obtain ⟨h1, h2⟩ := hb
      exact ⟨(d - f).toNat, by omega, by omega⟩
  · simp only [List.not_mem_nil, false_iff]
    omega

theorem dayRangeList_nodup (f t : Int) : (dayRangeList f t).Nodup := by
  simp only [dayRangeList]
  split_ifs with h
  · refine List.Nodup.map ?_ (List.nodup_range _)
    intro a b hab
    simp only at hab
    omega
  · simp

theorem mem_trailing30 (today d : Int) :
    d ∈ (List.range 30).map (fun (i : Nat) => today - (29 - (i : Int)))
      ↔ today - 29 ≤ d ∧ d ≤ today := by
  simp only [List.mem_map, List.mem_range]
  constructor
  · rintro ⟨i, hi, rfl⟩
    omega
  · intro hb
    obtain ⟨h1, h2⟩ := hb
    exact ⟨(d - (today - 29)).toNat, by omega, by omega⟩

theorem trailing30_nodup (today : Int) :
    ((List.range 30).map (fun (i : Nat) => today - (29 - (i : Int)))).Nodup := by
  refine List.Nodup.map ?_ (List.nodup_range _)
  intro a b hab
  simp only at hab
  omega

/-- Decidable equality of `Except`, needed to evaluate the loader and
parser results on concrete inputs. -/
instance exceptDecEq {e a : Type} [DecidableEq e] [DecidableEq a] :
    DecidableEq (Except e a) := fun x y =>
  match x, y with
  | .error u, .error v =>
    match decEq u v with
    | isTrue h => isTrue (by rw [h])
    | isFalse h => isFalse (by intro hc; cases hc; exact h rfl)
  | .error _, .ok _ => isFalse (by intro hc; cases hc)
  | .ok _, .error _ => isFalse (by intro hc; cases hc)
  | .ok u, .ok v =>
    match decEq u v with
    | isTrue h => isTrue (by rw [h])
    | isFalse h => isFalse (by intro hc; cases hc; exact h rfl)

/-- C2 counterexample: with window `[0, 0]` and a single commit on day 1,
the trend has its one bucket empty, so the trend-point counts sum to 0
while the input sequence has one commit — the sum does not equal the
input commit count. -/
theorem C2_counterexample :
    ((commitTrendSeries [⟨"sha", "alice", Option.none, Option.none, 1, "msg"⟩] 0
        (some (0, 0))).map Prod.snd).sum
      ≠ ([⟨"sha", "alice", Option.none, Option.none, 1, "msg"⟩] : List CommitData).length := by
  decide

/-- C2 (amended): with a window `[f, t]` (`f ≤ t`) the trend series has
`(t - f in days) + 1` points and without a window 30 points; the emitted
days are exactly the days of the window, each once, a commit-free day
carrying count 0; and the trend-point counts sum to the number of input
commits whose day falls inside the emitted range (not to the full input
commit count). -/
theorem C2_trend (commits : List CommitData) (today f t : Int) (h : f ≤ t) :
    (commitTrendSeries commits today (some (f, t))).length = (t - f).toNat + 1
    ∧ (commitTrendSeries commits today Option.none).length = 30
    ∧ ((commitTrendSeries commits today (some (f, t))).map Prod.fst).Nodup
    ∧ (∀ d : Int,
        (d, commitsOnDay commits d) ∈ commitTrendSeries commits today (some (f, t))
          ↔ f ≤ d ∧ d ≤ t)
    ∧ (∀ d : Int, f ≤ d → d ≤ t → commits.filter (fun c => c.day == d) = [] →
        (d, 0) ∈ commitTrendSeries commits today (some (f, t)))
    ∧ ((commitTrendSeries commits today (some (f, t))).map Prod.snd).sum
        = (commits.filter fun c => decide (f ≤ c.day) && decide (c.day ≤ t)).length
    ∧ ((commitTrendSeries commits today Option.none).map Prod.snd).sum
        = (commits.filter fun c =>
            decide (today - 29 ≤ c.day) && decide (c.day ≤ today)).length := by
  have hfst : (commitTrendSeries commits today (some (f, t))).map Prod.fst
      = dayRangeList f t := by
    simp only [commitTrendSeries, generateDateRange]
    exact map_fst_pairs _ _
  have hmem : ∀ d : Int,
      (d, commitsOnDay commits d) ∈ commitTrendSeries commits today (some (f, t))
        ↔ f ≤ d ∧ d ≤ t := by
    intro d
    constructor
    · intro hmem
      rcases List.mem_map.mp hmem with ⟨d', hd', heq⟩
      have : d' = d := congrArg Prod.fst heq
      subst this
      exact (mem_dayRangeList f t d').mp hd'
    · intro hb
      exact List.mem_map.mpr ⟨d, (mem_dayRangeList f t d).mpr hb, rfl⟩
  refine ⟨?_, ?_, ?_, hmem, ?_, ?_, ?_⟩
  · simp only [commitTrendSeries, generateDateRange, List.length_map]
    exact dayRangeList_length f t h
  · simp only [commitTrendSeries, generateDateRange]
    rw [List.length_map, List.length_map, List.length_range]
  · rw [hfst]
    exact dayRangeList_nodup f t
  · intro d h1 h2 hempty
    have hz : commitsOnDay commits d = 0 := by
      simp [commitsOnDay, hempty]
    have := (hmem d).mpr ⟨h1, h2⟩
    rwa [hz] at this
  · have hsnd : (commitTrendSeries commits today (some (f, t))).map Prod.snd
        = (dayRangeList f t).map fun d => commitsOnDay commits d := by
      simp only [commitTrendSeries, generateDateRange]
      exact map_snd_pairs _ _
    rw [hsnd, trend_sum commits _ (dayRangeList_nodup f t)]
    apply congrArg List.length
    apply List.filter_congr
    intro c _
    rw [Bool.eq_iff_iff]
    simp only [decide_eq_true_eq, Bool.and_eq_true]
    exact mem_dayRangeList f t c.day
  · have hsnd : (commitTrendSeries commits today Option.none).map Prod.snd
        = ((List.range 30).map (fun (i : Nat) => today - (29 - (i : Int)))).map
            fun d => commitsOnDay commits d := by
      simp only [commitTrendSeries, generateDateRange]
      exact map_snd_pairs _ _
    rw [hsnd, trend_sum commits _ (trailing30_nodup today)]
    apply congrArg List.length
    apply List.filter_congr
    intro c _
    rw [Bool.eq_iff_iff]
    simp only [decide_eq_true_eq, Bool.and_eq_true]
    exact mem_trailing30 today c.day

/-- Witness for C2 at window `[0, 2]` and a one-commit list on day 1: three
trend points, and the counts sum to the one in-window commit. -/
theorem C2_witness :
    (commitTrendSeries [⟨"sha", "alice", Option.none, Option.none, 1, "msg"⟩] 0
        (some (0, 2))).length = (2 - 0 : Int).toNat + 1
    ∧ ((commitTrendSeries [⟨"sha", "alice", Option.none, Option.none, 1, "msg"⟩] 0
        (some (0, 2))).map Prod.snd).sum
      = (([⟨"sha", "alice", Option.none, Option.none, 1, "msg"⟩] : List CommitData).filter
          fun c => decide ((0 : Int) ≤ c.day) && decide (c.day ≤ 2)).length :=
  ⟨(C2_trend [⟨"sha", "alice", Option.none, Option.none, 1, "msg"⟩] 0 0 2 (by decide)).1,
    (C2_trend [⟨"sha", "alice", Option.none, Option.none, 1, "msg"⟩] 0 0 2
      (by decide)).2.2.2.2.2.1⟩

/-- C5 counterexample: the single-row sheet `[{TeamName:"B", GitHubURL:""}]`
has both fields present and strings — the claim's literal filter keeps the
row — yet the loader filters it out (the empty string is falsy) and fails
with `NoValidRowsError` instead of returning the row. -/
theorem C5_counterexample :
    processExcelFile [⟨some (.str "B"), some (.str "")⟩] = .error .noValidRows
    ∧ presentAndString ⟨some (.str "B"), some (.str "")⟩ = true := by
  decide

/-- C5 (amended): the loader fails with `EmptyFileError` exactly on zero
rows; with `SchemaError` exactly when the first row lacks one of the two
required fields; otherwise it keeps exactly the rows whose two fields are
present, strings, and truthy (non-empty) — not merely present-and-string —
failing with `NoValidRowsError` when none remain, and any returned rows
are those kept rows in original order; the two-row scenario returns
exactly team A. -/
theorem C5_roster_loader (rows : List SheetRow) :
    (processExcelFile rows = .error .emptyFile ↔ rows = [])
    ∧ (∀ r rs, rows = r :: rs →
        (processExcelFile rows = .error .schemaError
          ↔ (r.TeamName.isNone || r.GitHubURL.isNone) = true))
    ∧ (∀ ts, processExcelFile rows = .ok ts →
        ts = rows.filter isValidTeam ∧ ts.Sublist rows)
    ∧ (∀ r rs, rows = r :: rs →
        (r.TeamName.isNone || r.GitHubURL.isNone) = false →
        processExcelFile rows =
          (if (rows.filter isValidTeam).isEmpty then .error .noValidRows
           else .ok (rows.filter isValidTeam)))
    ∧ (∀ a b : String, isValidTeam ⟨some (.str a), some (.str b)⟩
        = (!jsIsEmpty a && !jsIsEmpty b))
    ∧ processExcelFile
        [⟨some (.str "A"), some (.str "https://github.com/x/y")⟩,
         ⟨some (.str "B"), some (.str "")⟩]
        = .ok [⟨some (.str "A"), some (.str "https://github.com/x/y")⟩] := by
  refine ⟨?_, ?_, ?_, ?_, ?_, by decide⟩
  · cases rows with
    | nil => simp [processExcelFile]
    | cons r rs =>
      simp only [processExcelFile]
      constructor
      · intro hco
        split_ifs at hco <;> simp_all
      · intro hco
        exact absurd hco (List.cons_ne_nil r rs)
  · rintro r rs rfl
    simp only [processExcelFile]
    constructor
    · intro hco
      split_ifs at hco with h1 h2 <;> simp_all
    · intro hco
      simp [hco]
  · intro ts hts
    cases rows with
    | nil => simp [processExcelFile] at hts
    | cons r rs =>
      simp only [processExcelFile] at hts
      split_ifs at hts with h1 h2
      have hts' : (r :: rs).filter isValidTeam = ts := Except.ok.inj hts
      refine ⟨hts'.symm, ?_⟩
      rw [← hts']
      exact List.filter_sublist _
  · rintro r rs rfl hok
    simp only [processExcelFile, hok]
    simp
  · intro a b
    simp [isValidTeam, CellValue.truthy, CellValue.isStr, Bool.and_assoc]

/-- Witness for C5: the two-row scenario sheet has a non-empty first row
with both columns, and the loader keeps exactly the valid row A. -/
theorem C5_witness :
    processExcelFile
        [⟨some (.str "A"), some (.str "https://github.com/x/y")⟩,
         ⟨some (.str "B"), some (.str "")⟩]
      = .ok [⟨some (.str "A"), some (.str "https://github.com/x/y")⟩]
    ∧ ([⟨some (.str "A"), some (.str "https://github.com/x/y")⟩,
        ⟨some (.str "B"), some (.str "")⟩] : List SheetRow).filter isValidTeam
      = [⟨some (.str "A"), some (.str "https://github.com/x/y")⟩] :=
  ⟨(C5_roster_loader
      [⟨some (.str "A"), some (.str "https://github.com/x/y")⟩,
       ⟨some (.str "B"), some (.str "")⟩]).2.2.2.2.2,
    by decide⟩

/-- C6: the locator parser is a deterministic pure function: it fails with
the invalid-URL error exactly when URL parsing fails or the pathname has
fewer than two non-empty `/`-segments, and otherwise returns owner and
repository from the first two non-empty segments. -/
theorem C6_extract_repo (url : String) :
    (∀ r₁ r₂ : Except UrlError RepoInfo,
        extractRepoInfo url = r₁ → extractRepoInfo url = r₂ → r₁ = r₂)
    ∧ (urlPathChars url = Option.none → extractRepoInfo url = .error .invalidUrl)
    ∧ (∀ p, urlPathChars url = some p →
        ((splitOnChar '/' p).filter fun s => !s.isEmpty).length < 2 →
        extractRepoInfo url = .error .invalidUrl)
    ∧ (∀ p p0 p1 rest, urlPathChars url = some p →
        (splitOnChar '/' p).filter (fun s => !s.isEmpty) = p0 :: p1 :: rest →
        extractRepoInfo url = .ok ⟨String.mk p0, String.mk p1⟩)
    ∧ (extractRepoInfo url = .error .invalidUrl →
        urlPathChars url = Option.none
        ∨ ∃ p, urlPathChars url = some p
            ∧ ((splitOnChar '/' p).filter fun s => !s.isEmpty).length < 2) := by
  refine ⟨fun r₁ r₂ h1 h2 => h1 ▸ h2, ?_, ?_, ?_, ?_⟩
  · intro hp
    simp [extractRepoInfo, hp]
  · intro p hp hlen
    simp only [extractRepoInfo, hp]
    cases hl : (splitOnChar '/' p).filter fun s => !s.isEmpty with
    | nil => rfl
    | cons p0 ps =>
      cases ps with
      | nil => rfl
      | cons p1 rest =>
        rw [hl] at hlen
        simp at hlen
        omega
  · intro p p0 p1 rest hp hl
    simp [extractRepoInfo, hp, hl]
  · intro herr
    cases hp : urlPathChars url with
    | none => exact Or.inl rfl
    | some p =>
      refine Or.inr ⟨p, rfl, ?_⟩
      simp only [extractRepoInfo, hp] at herr
      cases hl : (splitOnChar '/' p).filter fun s => !s.isEmpty with
      | nil => simp
      | cons p0 ps =>
        cases ps with
        | nil => simp
        | cons p1 rest =>
          rw [hl] at herr
          simp at herr

/-- Witness for C6 at the scenario URL: owner `x`, repository `y`. -/
theorem C6_witness :
    extractRepoInfo "https://github.com/x/y" = .ok ⟨"x", "y"⟩ := by
  have h := (C6_extract_repo "https://github.com/x/y").2.2.2.1
    ("/x/y".toList) ("x".toList) ("y".toList) [] (by decide) (by decide)
  simpa using h

/-- Witness for C3: the scenario message `"fix bug"` lands in the `fix`
bucket, via the classification characterization. -/
theorem C3_witness : classifyMessage "fix bug" = Pattern.fix :=
  (C3_classification [] false "fix bug").1.mpr (by decide)

/-! ## Event aggregator lemmas (C10) -/

theorem find?_bumpAt (acc : List (Int × DayCounts)) (d : Int)
    (f : DayCounts → DayCounts) (d' : Int) :
    (bumpAt acc d f).find? (fun p => p.1 == d')
      = (acc.find? (fun p => p.1 == d')).map
          (fun p => if p.1 == d then (p.1, f p.2) else p) := by
  rw [bumpAt, List.find?_map]
  have hpred : ((fun p : Int × DayCounts => p.1 == d') ∘
      fun p => if p.1 == d then (p.1, f p.2) else p) = fun p => p.1 == d' := by
    funext p
    by_cases h : p.1 = d <;> simp [Function.comp, h]
  rw [hpred]

theorem dailyLookup_bumpAt_ne (acc : List (Int × DayCounts)) (d : Int)
    (f : DayCounts → DayCounts) (d' : Int) (h : d' ≠ d) :
    dailyLookup (bumpAt acc d f) d' = dailyLookup acc d' := by
  simp only [dailyLookup, find?_bumpAt]
  cases hf : acc.find? (fun p => p.1 == d') with
  | none => rfl
  | some p =>
    have hp : p.1 = d' := by simpa using List.find?_some hf
    simp [hp, h]

theorem dailyLookup_bumpAt_self (acc : List (Int × DayCounts)) (d : Int)
    (f : DayCounts → DayCounts) (hany : acc.any (fun p => p.1 == d) = true) :
    dailyLookup (bumpAt acc d f) d = f (dailyLookup acc d) := by
  simp only [dailyLookup, find?_bumpAt]
  cases hf : acc.find? (fun p => p.1 == d) with
  | none =>
    rcases List.any_eq_true.mp hany with ⟨p, hp, hpd⟩
    exact absurd hpd (List.find?_eq_none.mp hf p hp)
  | some p =>
    have hp : p.1 = d := by simpa using List.find?_some hf
    simp [hp]

theorem ensureDay_any (acc : List (Int × DayCounts)) (d : Int) :
    (ensureDay acc d).any (fun p => p.1 == d) = true := by
  rw [ensureDay]
  split_ifs with h
  · exact h
  · simp

theorem dailyLookup_ensureDay_self (acc : List (Int × DayCounts)) (d : Int) :
    dailyLookup (ensureDay acc d) d = dailyLookup acc d := by
  rw [ensureDay]
  split_ifs with h
  · rfl
  · have h' : acc.any (fun p => p.1 == d) = false := by
      cases hval : acc.any (fun p => p.1 == d)
      · rfl
      · exact absurd hval h
    have hf : acc.find? (fun p => p.1 == d) = Option.none :=
      List.find?_eq_none.mpr (List.any_eq_false.mp h')
    simp only [dailyLookup, List.find?_append, hf]
    simp

theorem dailyLookup_ensureDay_ne (acc : List (Int × DayCounts)) (d d' : Int)
    (h : d' ≠ d) :
    dailyLookup (ensureDay acc d) d' = dailyLookup acc d' := by
  rw [ensureDay]
  split_ifs with hany
  · rfl
  · simp only [dailyLookup, List.find?_append]
    have hsingle :
        List.find? (fun p => p.1 == d') [(d, (⟨0, 0, 0⟩ : DayCounts))]
          = Option.none := by
      simp [Ne.symm h]
    rw [hsingle, Option.or_none]

theorem dailyLookup_bumpDaily (acc : List (Int × DayCounts)) (e : GitEvent) (d : Int) :
    dailyLookup (bumpDaily acc e) d =
      (if e.day = d then
        (if e.type == "PushEvent" then
          ⟨(dailyLookup acc d).pushes + 1, (dailyLookup acc d).pulls,
            (dailyLookup acc d).merges⟩
        else if e.type == "PullRequestEvent" then
          ⟨(dailyLookup acc d).pushes, (dailyLookup acc d).pulls + 1,
            (dailyLookup acc d).merges⟩
        else if e.type == "PullRequestReviewEvent" || e.type == "MergeEvent" then
          ⟨(dailyLookup acc d).pushes, (dailyLookup acc d).pulls,
            (dailyLookup acc d).merges + 1⟩
        else dailyLookup acc d)
      else dailyLookup acc d) := by
  simp only [bumpDaily]
  by_cases hed : e.day = d
  · subst hed
    rw [if_pos rfl]
    by_cases h1 : e.type == "PushEvent"
    · rw [if_pos h1, if_pos h1,
        dailyLookup_bumpAt_self _ _ _ (ensureDay_any acc e.day),
        dailyLookup_ensureDay_self]
    · rw [if_neg h1, if_neg h1]
      by_cases h2 : e.type == "PullRequestEvent"
      · rw [if_pos h2, if_pos h2,
          dailyLookup_bumpAt_self _ _ _ (ensureDay_any acc e.day),
          dailyLookup_ensureDay_self]
      · rw [if_neg h2, if_neg h2]
        by_cases h3 : e.type == "PullRequestReviewEvent" || e.type == "MergeEvent"
        · rw [if_pos h3, if_pos h3,
            dailyLookup_bumpAt_self _ _ _ (ensureDay_any acc e.day),
            dailyLookup_ensureDay_self]
        · rw [if_neg h3, if_neg h3, dailyLookup_ensureDay_self]
  · rw [if_neg hed]
    have hd' : d ≠ e.day := fun hc => hed hc.symm
    by_cases h1 : e.type == "PushEvent"
    · rw [if_pos h1, dailyLookup_bumpAt_ne _ _ _ _ hd',
        dailyLookup_ensureDay_ne _ _ _ hd']
    · rw [if_neg h1]
      by_cases h2 : e.type == "PullRequestEvent"
      · rw [if_pos h2, dailyLookup_bumpAt_ne _ _ _ _ hd',
          dailyLookup_ensureDay_ne _ _ _ hd']
      · rw [if_neg h2]
        by_cases h3 : e.type == "PullRequestReviewEvent" || e.type == "MergeEvent"
        · rw [if_pos h3, dailyLookup_bumpAt_ne _ _ _ _ hd',
            dailyLookup_ensureDay_ne _ _ _ hd']
        · rw [if_neg h3, dailyLookup_ensureDay_ne _ _ _ hd']

/-- Push events on day `d`. -/
def pushesOn (events : List GitEvent) (d : Int) : Nat :=
  (events.filter (fun e => e.type == "PushEvent" && e.day == d)).length

/-- Pull-request events on day `d`. -/
def pullsOn (events : List GitEvent) (d : Int) : Nat :=
  (events.filter (fun e => e.type == "PullRequestEvent" && e.day == d)).length

/-- Review/merge events on day `d`. -/
def mergesOn (events : List GitEvent) (d : Int) : Nat :=
  (events.filter (fun e =>
    (e.type == "PullRequestReviewEvent" || e.type == "MergeEvent") && e.day == d)).length

theorem dailyLookup_dailyRecord (events : List GitEvent) (d : Int) :
    dailyLookup (dailyRecord events) d
      = ⟨pushesOn events d, pullsOn events d, mergesOn events d⟩ := by
  induction events using List.reverseRecOn with
  | nil => rfl
  | append_singleton es e ih =>
    have hstep : dailyRecord (es ++ [e]) = bumpDaily (dailyRecord es) e := by
      rw [dailyRecord, List.foldl_append, List.foldl_cons, List.foldl_nil]
      rfl
    rw [hstep, dailyLookup_bumpDaily, ih]
    by_cases hed : e.day = d
    · simp only [hed, if_pos rfl]
      split_ifs with h1 h2 h3 <;>
        simp_all [pushesOn, pullsOn, mergesOn, List.filter_append, List.filter_cons]
    · simp only [if_neg hed]
      have hne : (e.day == d) = false := by simp [hed]
      simp [pushesOn, pullsOn, mergesOn, List.filter_append, List.filter_cons, hne]

/-- C10: the daily activity histogram has exactly 30 entries regardless of
the event list, and the entry of any trailing day with no matching
(push / pull-request / review / merge) events is present with all three
counts zero. -/
theorem C10_daily_histogram (events : List GitEvent) (today : Int) :
    (dailyActivityArray events today).length = 30
    ∧ (∀ d ∈ last30Days today, matchingEventsOn events d = [] →
        (d, (⟨0, 0, 0⟩ : DayCounts)) ∈ dailyActivityArray events today) := by
  constructor
  · rw [dailyActivityArray, List.length_map, last30Days, List.length_map,
      List.length_range]
  · intro d hd hmatch
    have hall := List.filter_eq_nil_iff.mp hmatch
    have hp : pushesOn events d = 0 := by
      rw [pushesOn, List.length_eq_zero, List.filter_eq_nil_iff]
      intro e he hc
      apply hall e he
      rw [Bool.and_eq_true] at hc ⊢
      exact ⟨by simp [hc.1], hc.2⟩
    have hl : pullsOn events d = 0 := by
      rw [pullsOn, List.length_eq_zero, List.filter_eq_nil_iff]
      intro e he hc
      apply hall e he
      rw [Bool.and_eq_true] at hc ⊢
      exact ⟨by simp [hc.1], hc.2⟩
    have hm : mergesOn events d = 0 := by
      rw [mergesOn, List.length_eq_zero, List.filter_eq_nil_iff]
      intro e he hc
      apply hall e he
      rw [Bool.and_eq_true] at hc ⊢
      refine ⟨?_, hc.2⟩
      rcases Bool.or_eq_true_iff.mp hc.1 with h | h <;> simp [h]
    have hz : dailyLookup (dailyRecord events) d = ⟨0, 0, 0⟩ := by
      rw [dailyLookup_dailyRecord, hp, hl, hm]
    exact List.mem_map.mpr ⟨d, hd, by rw [hz]⟩

/-- Witness for C10: with no events at all, day `-29` of the window ending
day 0 appears in the histogram with zero counts. -/
theorem C10_witness :
    ((-29 : Int), (⟨0, 0, 0⟩ : DayCounts)) ∈ dailyActivityArray [] 0 :=
  (C10_daily_histogram [] 0).2 (-29) (by decide) rfl

/-! ## Contributor-ranking lemmas (C9) -/

theorem contributorCounts_eq_foldl (commits : List CommitData) :
    contributorCounts commits
      = (commits.map contributorName).foldl bumpContributor [] := by
  rw [contributorCounts, List.foldl_map]

theorem countsFold_invariant (ns : List String) :
    ((ns.foldl bumpContributor []).map Prod.fst).Nodup
    ∧ (∀ p ∈ ns.foldl bumpContributor [], p.1 ∈ ns ∧ p.2 = ns.count p.1)
    ∧ (∀ n ∈ ns, ∃ k, (n, k) ∈ ns.foldl bumpContributor [])
    ∧ (ns.foldl bumpContributor []).Pairwise
        (fun p q => ns.indexOf p.1 < ns.indexOf q.1) := by
  induction ns using List.reverseRecOn with
  | nil => simp
  | append_singleton ms m ih =>
    obtain ⟨ihnodup, ihmem, ihex, ihpair⟩ := ih
    have hstep : (ms ++ [m]).foldl bumpContributor []
        = bumpContributor (ms.foldl bumpContributor []) m := by
      rw [List.foldl_append, List.foldl_cons, List.foldl_nil]
    set A := ms.foldl bumpContributor [] with hA
    have hkeys_ms : ∀ p ∈ A, p.1 ∈ ms := fun p hp => (ihmem p hp).1
    rw [hstep]
    by_cases hany : A.any (fun p => p.1 == m) = true
    · have hAeq : bumpContributor A m
          = A.map (fun p => if p.1 == m then (p.1, p.2 + 1) else p) := by
        rw [bumpContributor, if_pos hany]
      have hmem_m : m ∈ ms := by
        rcases List.any_eq_true.mp hany with ⟨p, hp, hpm⟩
        have hpm' : p.1 = m := by simpa using hpm
        exact hpm' ▸ hkeys_ms p hp
      have hfst : ∀ p : String × Nat,
          ((if p.1 == m then (p.1, p.2 + 1) else p) : String × Nat).1 = p.1 := by
        intro p
        by_cases h : p.1 = m <;> simp [h]
      rw [hAeq]
      refine ⟨?_, ?_, ?_, ?_⟩
      · have hkeq : (A.map (fun p => if p.1 == m then (p.1, p.2 + 1) else p)).map Prod.fst
            = A.map Prod.fst := by
          rw [List.map_map]
          apply List.map_congr_left
          intro p _
          exact hfst p
        rw [hkeq]
        exact ihnodup
      · intro p hp
        rcases List.mem_map.mp hp with ⟨q, hq, rfl⟩
        have hqmem := (ihmem q hq).1
        have hqcnt := (ihmem q hq).2
        by_cases h : q.1 = m
        · rw [if_pos (by simp [h])]
          refine ⟨by simp [List.mem_append, hqmem], ?_⟩
          rw [List.count_append, List.count_singleton]
          rw [if_pos (by simp [h])]
          dsimp only
          omega
        · rw [if_neg (by simp [h])]
          refine ⟨by simp [List.mem_append, hqmem], ?_⟩
          rw [List.count_append, List.count_singleton]
          rw [if_neg (by simp; exact fun hc => h hc.symm)]
          omega
      · intro n hn
        rcases List.mem_append.mp hn with hn | hn
        · rcases ihex n hn with ⟨k, hk⟩
          by_cases h : n = m
          · exact ⟨k + 1, by
              refine List.mem_map.mpr ⟨(n, k), hk, ?_⟩
              rw [if_pos (by simp [h])]⟩
          · exact ⟨k, by
              refine List.mem_map.mpr ⟨(n, k), hk, ?_⟩
              rw [if_neg (by simp [h])]⟩
        · have hn' : n = m := by simpa using hn
          rcases List.any_eq_true.mp hany with ⟨p, hp, hpm⟩
          have hpm' : p.1 = m := by simpa using hpm
          refine ⟨p.2 + 1, List.mem_map.mpr ⟨p, hp, ?_⟩⟩
          rw [if_pos (by simp [hpm'])]
          rw [hpm', hn']
      · rw [List.pairwise_map]
        refine ihpair.imp_of_mem ?_
        intro p q hp hq hlt
        rw [hfst p, hfst q,
          List.indexOf_append_of_mem (hkeys_ms p hp),
          List.indexOf_append_of_mem (hkeys_ms q hq)]
        exact hlt
    · have hAeq : bumpContributor A m = A ++ [(m, 1)] := by
        rw [bumpContributor, if_neg hany]
      have hkeysne : ∀ p ∈ A, p.1 ≠ m := by
        intro p hp h
        exact hany (List.any_eq_true.mpr ⟨p, hp, by simp [h]⟩)
      have hnotmem : m ∉ ms := by
        intro hm
        rcases ihex m hm with ⟨k, hk⟩
        exact hany (List.any_eq_true.mpr ⟨(m, k), hk, by simp⟩)
      rw [hAeq]
      refine ⟨?_, ?_, ?_, ?_⟩
      · rw [List.map_append]
        rw [List.nodup_append]
        refine ⟨ihnodup, by simp, ?_⟩
        intro a ha hma
        have ha' : a = m := by simpa using hma
        subst ha'
        rcases List.mem_map.mp ha with ⟨p, hp, hpa⟩
        exact hkeysne p hp hpa
      · intro p hp
        rcases List.mem_append.mp hp with hp | hp
        · have hpk := hkeys_ms p hp
          refine ⟨by simp [List.mem_append, hpk], ?_⟩
          rw [List.count_append, List.count_singleton]
          rw [if_neg (by simp; exact fun hc => hkeysne p hp hc.symm)]
          rw [(ihmem p hp).2]
          omega
        · have hp' : p = (m, 1) := by simpa using hp
          subst hp'
          refine ⟨by simp, ?_⟩
          rw [List.count_append, List.count_singleton]
          rw [List.count_eq_zero.mpr hnotmem, if_pos (by simp)]
      · intro n hn
        rcases List.mem_append.mp hn with hn | hn
        · rcases ihex n hn with ⟨k, hk⟩
          exact ⟨k, List.mem_append_left _ hk⟩
        · have hn' : n = m := by simpa using hn
          subst hn'
          exact ⟨1, List.mem_append_right _ (by simp)⟩
      · rw [List.pairwise_append]
        refine ⟨?_, by simp, ?_⟩
        · refine ihpair.imp_of_mem ?_
          intro p q hp hq hlt
          rw [List.indexOf_append_of_mem (hkeys_ms p hp),
            List.indexOf_append_of_mem (hkeys_ms q hq)]
          exact hlt
        · intro p hp q hq
          have hq' : q = (m, 1) := by simpa using hq
          subst hq'
          rw [List.indexOf_append_of_mem (hkeys_ms p hp)]
          rw [List.indexOf_append_of_not_mem hnotmem]
          have h1 : ms.indexOf p.1 < ms.length :=
            List.indexOf_lt_length.mpr (hkeys_ms p hp)
          have h2 : List.indexOf (m, 1).1 [m] = 0 := List.indexOf_cons_self m []
          omega

theorem pair_sublist_of_mem {α : Type} {l : List α} {a b : α}
    (ha : a ∈ l) (hb : b ∈ l) (hne : a ≠ b) :
    [a, b].Sublist l ∨ [b, a].Sublist l := by
  induction l with
  | nil => exact absurd ha (List.not_mem_nil a)
  | cons x t ih =>
    by_cases hax : a = x
    · subst hax
      have hbt : b ∈ t := by
        rcases List.mem_cons.mp hb with h | h
        · exact absurd h.symm hne
        · exact h
      exact Or.inl (List.Sublist.cons₂ a (List.singleton_sublist.mpr hbt))
    · by_cases hbx : b = x
      · subst hbx
        have hat : a ∈ t := by
          rcases List.mem_cons.mp ha with h | h
          · exact absurd h hax
          · exact h
        exact Or.inr (List.Sublist.cons₂ b (List.singleton_sublist.mpr hat))
      · have hat : a ∈ t := by
          rcases List.mem_cons.mp ha with h | h
          · exact absurd h hax
          · exact h
        have hbt : b ∈ t := by
          rcases List.mem_cons.mp hb with h | h
          · exact absurd h hbx
          · exact h
        rcases ih hat hbt with h | h
        · exact Or.inl (h.cons x)
        · exact Or.inr (h.cons x)

theorem not_pair_sublist_both {α : Type} {l : List α} {a b : α}
    (hnd : l.Nodup) (hne : a ≠ b) (h1 : [a, b].Sublist l) (h2 : [b, a].Sublist l) :
    False := by
  induction l with
  | nil => exact absurd h1 (by simp)
  | cons x t ih =>
    have hxt : x ∉ t := (List.nodup_cons.mp hnd).1
    have hndt : t.Nodup := (List.nodup_cons.mp hnd).2
    cases h1 with
    | cons _ h1' =>
      cases h2 with
      | cons _ h2' => exact ih hndt h1' h2'
      | cons₂ _ h2' => exact hxt (h1'.subset (by simp))
    | cons₂ _ h1' =>
      cases h2 with
      | cons _ h2' => exact hxt (h2'.subset (by simp))
      | cons₂ _ h2' => exact hne rfl

theorem canonicalArrayIndex_repr {s : String} {i : Nat}
    (hs : canonicalArrayIndex s = some i) : s = Nat.repr i := by
  simp only [canonicalArrayIndex] at hs
  split_ifs at hs with h1
  have hrepr := eq_of_beq ((Bool.and_eq_true _ _).mp h1).1
  have hval := Option.some.inj hs
  rw [← hval]
  exact hrepr.symm

theorem canonicalArrayIndex_inj {s t : String} {i : Nat}
    (hs : canonicalArrayIndex s = some i) (ht : canonicalArrayIndex t = some i) :
    s = t :=
  (canonicalArrayIndex_repr hs).trans (canonicalArrayIndex_repr ht).symm

theorem jsObjectEntries_perm (acc : List (String × Nat)) :
    (jsObjectEntries acc).Perm acc := by
  rw [jsObjectEntries]
  exact ((List.perm_insertionSort idxLe _).append_right _).trans
    (List.filter_append_perm _ acc)

theorem jsObjectEntries_pairwise (ns : List String) (acc : List (String × Nat))
    (hkeys : acc.Pairwise (fun p q : String × Nat => p.1 ≠ q.1))
    (hpair : acc.Pairwise
      (fun p q : String × Nat => ns.indexOf p.1 < ns.indexOf q.1)) :
    (jsObjectEntries acc).Pairwise (entryOrder ns) := by
  have hsorted : (List.insertionSort idxLe
      (acc.filter fun p => (canonicalArrayIndex p.1).isSome)).Pairwise idxLe :=
    List.sorted_insertionSort idxLe _
  have hsegKeys : (List.insertionSort idxLe
      (acc.filter fun p => (canonicalArrayIndex p.1).isSome)).Pairwise
      (fun p q : String × Nat => p.1 ≠ q.1) := by
    refine (List.Perm.pairwise_iff (fun h => h.symm)
      (List.perm_insertionSort idxLe _)).mpr ?_
    exact List.Pairwise.sublist (List.filter_sublist acc) hkeys
  rw [jsObjectEntries, List.pairwise_append]
  refine ⟨?_, ?_, ?_⟩
  · rw [List.pairwise_iff_forall_sublist]
    intro a b hsub
    have hle : idxLe a b := List.pairwise_iff_forall_sublist.mp hsorted hsub
    have hne : a.1 ≠ b.1 := List.pairwise_iff_forall_sublist.mp hsegKeys hsub
    have hamem : a ∈ acc.filter (fun p => (canonicalArrayIndex p.1).isSome) :=
      (List.perm_insertionSort idxLe _).subset (hsub.subset (by simp))
    have hbmem : b ∈ acc.filter (fun p => (canonicalArrayIndex p.1).isSome) :=
      (List.perm_insertionSort idxLe _).subset (hsub.subset (by simp))
    obtain ⟨i, hi⟩ := Option.isSome_iff_exists.mp (List.mem_filter.mp hamem).2
    obtain ⟨j, hj⟩ := Option.isSome_iff_exists.mp (List.mem_filter.mp hbmem).2
    have hij : i ≤ j := by
      have : (canonicalArrayIndex a.1).getD 0 ≤ (canonicalArrayIndex b.1).getD 0 := hle
      rwa [hi, hj, Option.getD_some, Option.getD_some] at this
    have hijne : i ≠ j := by
      intro hc
      exact hne (canonicalArrayIndex_inj hi (hc ▸ hj))
    simp only [entryOrder, hi, hj]
    omega
  · rw [List.pairwise_iff_forall_sublist]
    intro a b hsub
    have hsubacc : [a, b].Sublist acc := hsub.trans (List.filter_sublist acc)
    have hlt := List.pairwise_iff_forall_sublist.mp hpair hsubacc
    have hna : canonicalArrayIndex a.1 = Option.none := by
      have := (List.mem_filter.mp (hsub.subset (by simp : a ∈ [a, b]))).2
      cases hopt : canonicalArrayIndex a.1 with
      | none => rfl
      | some v => rw [hopt] at this; simp at this
    have hnb : canonicalArrayIndex b.1 = Option.none := by
      have := (List.mem_filter.mp (hsub.subset (by simp : b ∈ [a, b]))).2
      cases hopt : canonicalArrayIndex b.1 with
      | none => rfl
      | some v => rw [hopt] at this; simp at this
    simp only [entryOrder, hna, hnb]
    exact hlt
  · intro a ha b hb
    have hamem : a ∈ acc.filter (fun p => (canonicalArrayIndex p.1).isSome) :=
      (List.perm_insertionSort idxLe _).subset ha
    obtain ⟨i, hi⟩ := Option.isSome_iff_exists.mp (List.mem_filter.mp hamem).2
    have hnb : canonicalArrayIndex b.1 = Option.none := by
      have := (List.mem_filter.mp hb).2
      cases hopt : canonicalArrayIndex b.1 with
      | none => rfl
      | some v => rw [hopt] at this; simp at this
    simp only [entryOrder, hi, hnb]

theorem countDescBool_trans (a b c : String × Nat) :
    decide (b.2 ≤ a.2) = true → decide (c.2 ≤ b.2) = true →
    decide (c.2 ≤ a.2) = true := by
  intro hab hbc
  exact decide_eq_true (le_trans (of_decide_eq_true hbc) (of_decide_eq_true hab))

theorem countDescBool_total (a b : String × Nat) :
    (decide (b.2 ≤ a.2) || decide (a.2 ≤ b.2)) = true := by
  rcases Nat.le_total b.2 a.2 with h | h <;> simp [h]

theorem mergeSort_pair {α : Type} {le : α → α → Bool}
    (htrans : ∀ (a b c : α), le a b → le b c → le a c)
    (htotal : ∀ (a b : α), le a b || le b a)
    (a b : α) (hab : le a b = true) :
    [a, b].mergeSort le = [a, b] := by
  have hsub : [a, b].Sublist ([a, b].mergeSort le) :=
    List.pair_sublist_mergeSort htrans htotal hab (List.Sublist.refl [a, b])
  have hlen : ([a, b].mergeSort le).length = 2 :=
    (List.mergeSort_perm [a, b] le).length_eq
  exact (hsub.eq_of_length (by rw [hlen]; rfl)).symm

/-- C9 counterexample: on the two-commit input by contributors "9" then
"2" (one commit each), `Object.entries` enumerates the array-index key
"2" ahead of the first-seen "9" (canonical numeric keys come first, in
ascending numeric order), and the stable count sort preserves that, so
the ranking is [("2",1), ("9",1)]: the tie is not broken by first-seen
order as the claim states. -/
theorem C9_counterexample :
    topContributorsList digitNameCommits = [("2", 1), ("9", 1)]
    ∧ (digitNameCommits.map contributorName).indexOf "9" = 0
    ∧ (digitNameCommits.map contributorName).indexOf "2" = 1
    ∧ ¬ (topContributorsList digitNameCommits).Pairwise
        (fun a b : String × Nat => a.2 = b.2 →
          (digitNameCommits.map contributorName).indexOf a.1
            < (digitNameCommits.map contributorName).indexOf b.1) := by
  have hje : jsObjectEntries (contributorCounts digitNameCommits)
      = [("2", 1), ("9", 1)] := by decide
  have hms : ([(("2" : String), 1), ("9", 1)]).mergeSort
      (fun a b : String × Nat => decide (b.2 ≤ a.2)) = [("2", 1), ("9", 1)] :=
    mergeSort_pair countDescBool_trans countDescBool_total _ _ (by decide)
  have htop : topContributorsList digitNameCommits = [("2", 1), ("9", 1)] := by
    rw [topContributorsList, hje, hms]
    rfl
  refine ⟨htop, by decide, by decide, ?_⟩
  intro hpw
  rw [htop] at hpw
  have h := (List.pairwise_cons.mp hpw).1 ("9", 1) (by simp) rfl
  have e1 : (digitNameCommits.map contributorName).indexOf "2" = 1 := by decide
  have e2 : (digitNameCommits.map contributorName).indexOf "9" = 0 := by decide
  rw [e1, e2] at h
  exact absurd h (by decide)

/-- C9 (amended): the contributor ranking keeps at most five entries;
entries are ordered by commit count descending; each entry's count is the
number of input commits attributed to that contributor; and entries with
equal counts appear in the enumeration order `Object.entries` gives the
counts record — contributors whose names are canonical array-index
strings first, in ascending numeric order, then the remaining
contributors in first-seen order. -/
theorem C9_top_contributors (commits : List CommitData) :
    (topContributorsList commits).length ≤ 5
    ∧ (topContributorsList commits).Pairwise (fun a b => b.2 ≤ a.2)
    ∧ (∀ p ∈ topContributorsList commits,
        p.2 = (commits.map contributorName).count p.1)
    ∧ (topContributorsList commits).Pairwise (fun a b => a.2 = b.2 →
        entryOrder (commits.map contributorName) a b) := by
  have hfold := contributorCounts_eq_foldl commits
  obtain ⟨hnodup, hmem, hex, hpair⟩ := countsFold_invariant (commits.map contributorName)
  rw [← hfold] at hnodup hmem hex hpair
  have hkeysPairwise : (contributorCounts commits).Pairwise
      (fun p q : String × Nat => p.1 ≠ q.1) := by
    rw [← List.pairwise_map (f := Prod.fst)]
    exact hnodup
  have hperm_e : (jsObjectEntries (contributorCounts commits)).Perm
      (contributorCounts commits) := jsObjectEntries_perm _
  have hcountsNodup : (contributorCounts commits).Nodup := List.Nodup.of_map _ hnodup
  have hentriesNodup : (jsObjectEntries (contributorCounts commits)).Nodup :=
    hperm_e.nodup_iff.mpr hcountsNodup
  have hEpair : (jsObjectEntries (contributorCounts commits)).Pairwise
      (entryOrder (commits.map contributorName)) :=
    jsObjectEntries_pairwise _ _ hkeysPairwise hpair
  have hperm := List.mergeSort_perm (jsObjectEntries (contributorCounts commits))
    (fun a b : String × Nat => decide (b.2 ≤ a.2))
  have hsortNodup :
      ((jsObjectEntries (contributorCounts commits)).mergeSort
        (fun a b : String × Nat => decide (b.2 ≤ a.2))).Nodup :=
    hperm.nodup_iff.mpr hentriesNodup
  have hsorted := List.sorted_mergeSort countDescBool_trans countDescBool_total
    (jsObjectEntries (contributorCounts commits))
  have hties : ((jsObjectEntries (contributorCounts commits)).mergeSort
      (fun a b : String × Nat => decide (b.2 ≤ a.2))).Pairwise
      (fun a b => a.2 = b.2 → entryOrder (commits.map contributorName) a b) := by
    rw [List.pairwise_iff_forall_sublist]
    intro a b hsub heq
    have hne : a ≠ b := by
      have := hsortNodup.sublist hsub
      exact (List.pairwise_cons.mp this).1 b (by simp)
    have hamem : a ∈ jsObjectEntries (contributorCounts commits) :=
      hperm.subset (hsub.subset (by simp))
    have hbmem : b ∈ jsObjectEntries (contributorCounts commits) :=
      hperm.subset (hsub.subset (by simp))
    rcases pair_sublist_of_mem hamem hbmem hne with hord | hord
    · have hpw := List.Pairwise.sublist hord hEpair
      exact (List.pairwise_cons.mp hpw).1 b (by simp)
    · have hle : (fun a b : String × Nat => decide (b.2 ≤ a.2)) b a = true :=
        decide_eq_true (le_of_eq heq)
      have hstable := List.pair_sublist_mergeSort countDescBool_trans
        countDescBool_total hle hord
      exact (not_pair_sublist_both hsortNodup hne hsub hstable).elim
  refine ⟨?_, ?_, ?_, ?_⟩
  · rw [topContributorsList]
    exact List.length_take_le 5 _
  · rw [topContributorsList]
    refine List.Pairwise.sublist (List.take_sublist 5 _) ?_
    exact hsorted.imp (fun h => of_decide_eq_true h)
  · intro p hp
    rw [topContributorsList] at hp
    have hp' : p ∈ (jsObjectEntries (contributorCounts commits)).mergeSort
        (fun a b : String × Nat => decide (b.2 ≤ a.2)) :=
      List.mem_of_mem_take hp
    have hpc : p ∈ contributorCounts commits := hperm_e.subset (hperm.subset hp')
    exact (hmem p hpc).2
  · rw [topContributorsList]
    exact List.Pairwise.sublist (List.take_sublist 5 _) hties

/-- Witness for C9 on the three-commit scenario list (one contributor,
"alice", a non-numeric name with three commits): at most five entries,
and the ranked entry carries her full commit count. -/
theorem C9_witness :
    (topContributorsList c8commits).length ≤ 5
    ∧ (("alice", 3) : String × Nat).2
        = (c8commits.map contributorName).count ("alice", 3).1 := by
  have hje : jsObjectEntries (contributorCounts c8commits) = [("alice", 3)] := by
    decide
  have hmem : (("alice", 3) : String × Nat) ∈ topContributorsList c8commits := by
    rw [topContributorsList, hje]
    simp
  exact ⟨(C9_top_contributors c8commits).1,
    (C9_top_contributors c8commits).2.2.1 ("alice", 3) hmem⟩

end GithubMonitor
